import Mathlib

/-!
# Verification of the ownership tutorial program

A shallow embedding of `src/src/main.rs` from the `ownership` repository.
Strings are modelled as lists of bytes (`List Nat`), slices as sublists,
and the compile-time ownership/borrow discipline described by the spec as a
small explicit-state checker.  Functions are translated from the Rust source
where it exists; parts of the discipline that only the spec describes (the
Rust compiler's checks are not part of the repository sources) are modelled
from the spec and marked as such in their doc comments.
-/

namespace Ownership

/-- A byte of a string (Rust `u8`, here as `Nat`; the source program only
inspects the single byte `b' '`). -/
abbrev Byte := Nat

/-- The ASCII space byte `b' '` matched by `first_word`
(src/src/main.rs:211). -/
def spaceByte : Byte := 32

/-! ## `first_word` (src/src/main.rs:201-220) -/

/-- The `for (i, &item) in bytes.iter().enumerate()` loop of `first_word`:
`s` is the whole input, `bytes` the not-yet-visited suffix, `i` the current
index.  On seeing a space it returns `&s[..i]` (here `s.take i`); after the
loop it returns `&s[..]` (here `s`). -/
def first_word_loop (s : List Byte) : List Byte → Nat → List Byte
  | [], _ => s
  | b :: rest, i => if b = spaceByte then s.take i else first_word_loop s rest (i + 1)

/-- Embedding of `fn first_word(s: &str) -> &str` (src/src/main.rs:201-220):
scan the bytes of `s` for the first space; return the slice before it, or
the whole string when there is none. -/
def first_word (s : List Byte) : List Byte :=
  first_word_loop s s 0

/-- The byte predicate the loop scans with: `item == b' '` negated for
`takeWhile`-style reasoning. -/
def notSpace (b : Byte) : Bool := !(b == spaceByte)

theorem first_word_loop_eq (s : List Byte) :
    ∀ bytes i, bytes = s.drop i →
      first_word_loop s bytes i = s.take i ++ bytes.takeWhile notSpace
  | [], i, h => by
    have hlen : s.length ≤ i := List.drop_eq_nil_iff.mp h.symm
    simp [first_word_loop, List.take_of_length_le hlen]
  | b :: rest, i, h => by
    have hi : i < s.length :=
      List.length_lt_of_drop_ne_nil (fun hnil => by rw [← h] at hnil; exact absurd hnil (by simp))
    have hcons : s.drop i = s.get ⟨i, hi⟩ :: s.drop (i + 1) := List.drop_eq_getElem_cons hi
    rw [hcons] at h
    injection h with hb' hrest
    have htake : s.take (i + 1) = s.take i ++ [b] := by
      rw [← List.take_concat_get s i hi, List.concat_eq_append, hb']
      rfl
    by_cases hb : b = spaceByte
    · simp [first_word_loop, hb, List.takeWhile_cons, notSpace]
    · have ih := first_word_loop_eq s rest (i + 1) hrest
      simp only [first_word_loop, hb, if_false]
      rw [ih, htake, List.takeWhile_cons]
      simp [notSpace, hb, List.append_assoc]

/-- `first_word` computes the longest space-free initial segment. -/
theorem first_word_eq_takeWhile (s : List Byte) :
    first_word s = s.takeWhile notSpace := by
  have := first_word_loop_eq s s 0 (by simp)
  simpa [first_word] using this

theorem takeWhile_notSpace_of_not_mem :
    ∀ s : List Byte, spaceByte ∉ s → s.takeWhile notSpace = s
  | [], _ => rfl
  | b :: rest, h => by
    have hb : b ≠ spaceByte := fun hb => h (hb ▸ List.mem_cons_self b rest)
    have hrest : spaceByte ∉ rest := fun hm => h (List.mem_cons_of_mem b hm)
    rw [List.takeWhile_cons]
    simp [notSpace, hb, takeWhile_notSpace_of_not_mem rest hrest]

theorem takeWhile_notSpace_of_mem :
    ∀ s : List Byte, spaceByte ∈ s →
      s.takeWhile notSpace = s.take (s.indexOf spaceByte)
  | b :: rest, h => by
    by_cases hb : b = spaceByte
    · subst hb
      rw [List.takeWhile_cons]
      simp [notSpace, List.indexOf_cons_self]
    · have hrest : spaceByte ∈ rest := by
        rcases List.mem_cons.mp h with h1 | h1
        · exact absurd h1.symm hb
        · exact h1
      have hne : ¬(b == spaceByte) = true := by simpa using hb
      rw [List.takeWhile_cons]
      simp only [notSpace, hne, Bool.not_false, if_true]
      rw [takeWhile_notSpace_of_mem rest hrest]
      rw [List.indexOf_cons]
      simp [hne, List.take_succ_cons]

/-! ## Checked string slicing (the runtime checks behind `&s[..i]`, `&s[a..b]`) -/

/-- Rust's `str::is_char_boundary`: position `i` is a boundary when it is 0,
the length of `s`, or the byte at `i` is not a UTF-8 continuation byte
(`b < 0x80 ∨ 0xC0 ≤ b`). -/
def is_char_boundary (s : List Byte) (i : Nat) : Bool :=
  if i = 0 then true
  else
    match s.get? i with
    | some b => b < 128 || 192 ≤ b
    | none => i == s.length

/-- The checked slice `&s[a..b]` of a string: succeeds when `a ≤ b` and both
ends are in range on character boundaries, otherwise the out-of-range /
boundary error branch (a panic in Rust) is taken, modelled as `none`. -/
def str_slice (s : List Byte) (a b : Nat) : Option (List Byte) :=
  if a ≤ b ∧ is_char_boundary s a ∧ is_char_boundary s b then
    some ((s.drop a).take (b - a))
  else
    none

/-- `first_word` with its internal slicing left checked: the loop body's
`&s[..i]` becomes `str_slice s 0 i` and the final `&s[..]` becomes
`str_slice s 0 s.length` (the comment at src/src/main.rs:92 spells out that
omitted range ends default to `0` and the length). -/
def first_word_checked_loop (s : List Byte) : List Byte → Nat → Option (List Byte)
  | [], _ => str_slice s 0 s.length
  | b :: rest, i =>
      if b = spaceByte then str_slice s 0 i else first_word_checked_loop s rest (i + 1)

/-- `first_word` before erasing the slicing checks. -/
def first_word_checked (s : List Byte) : Option (List Byte) :=
  first_word_checked_loop s s 0

theorem is_char_boundary_zero (s : List Byte) : is_char_boundary s 0 = true := by
  simp [is_char_boundary]

theorem is_char_boundary_length (s : List Byte) :
    is_char_boundary s s.length = true := by
  unfold is_char_boundary
  by_cases h : s.length = 0
  · simp [h]
  · rw [if_neg h]
    have : s.get? s.length = none := by
      simp
    rw [this]
    simp

/-- At a position holding an ASCII byte (such as the space byte) the string
always has a character boundary. -/
theorem is_char_boundary_of_ascii (s : List Byte) (i : Nat) (b : Byte)
    (hget : s.get? i = some b) (hb : b < 128) : is_char_boundary s i = true := by
  unfold is_char_boundary
  by_cases h0 : i = 0
  · simp [h0]
  · rw [if_neg h0, hget]
    simp [hb]

theorem str_slice_to_eq_take (s : List Byte) (i : Nat)
    (h : is_char_boundary s i = true) : str_slice s 0 i = some (s.take i) := by
  unfold str_slice
  rw [if_pos ⟨Nat.zero_le i, is_char_boundary_zero s, h⟩]
  simp

/-- The full slice `&s[..]` (as `str_slice s 0 s.length`) always succeeds and
yields the whole string. -/
theorem str_slice_full (s : List Byte) : str_slice s 0 s.length = some s := by
  rw [str_slice_to_eq_take s s.length (is_char_boundary_length s)]
  simp

theorem drop_eq_cons_split (s rest : List Byte) (b : Byte) (i : Nat)
    (h : b :: rest = s.drop i) : s.get? i = some b ∧ rest = s.drop (i + 1) := by
  have hi : i < s.length :=
    List.length_lt_of_drop_ne_nil (fun hnil => by rw [← h] at hnil; exact absurd hnil (by simp))
  have hcons : s.drop i = s.get ⟨i, hi⟩ :: s.drop (i + 1) := List.drop_eq_getElem_cons hi
  rw [hcons] at h
  injection h with hb' hrest
  exact ⟨by rw [List.get?_eq_get hi, ← hb'], hrest⟩

theorem first_word_checked_loop_eq (s : List Byte) :
    ∀ bytes i, bytes = s.drop i →
      first_word_checked_loop s bytes i = some (first_word_loop s bytes i)
  | [], _, _ => by simp [first_word_checked_loop, first_word_loop, str_slice_full]
  | b :: rest, i, h => by
    obtain ⟨hget, hrest⟩ := drop_eq_cons_split s rest b i h
    by_cases hb : b = spaceByte
    · have hbd : is_char_boundary s i = true :=
        is_char_boundary_of_ascii s i b hget (by rw [hb]; norm_num [spaceByte])
      simp [first_word_checked_loop, first_word_loop, hb, str_slice_to_eq_take s i hbd]
    · simp only [first_word_checked_loop, first_word_loop, hb, if_false]
      exact first_word_checked_loop_eq s rest (i + 1) hrest

/-! ## Concrete strings of the demonstration (src/src/main.rs:83, 90-93) -/

/-- The bytes of `"hello world"` (src/src/main.rs:83). -/
def helloWorld : List Byte := [104, 101, 108, 108, 111, 32, 119, 111, 114, 108, 100]

/-- The bytes of `"hello"`. -/
def helloBytes : List Byte := [104, 101, 108, 108, 111]

/-- The bytes of `"world"`. -/
def worldBytes : List Byte := [119, 111, 114, 108, 100]

/-! ## The spec's generic slice constructor -/

/-- Modelled from the spec: the generic slice constructor
`slice(seq, start, end)` of the verifier's slice-validity policy (the general
operation is not a function of the sources, which only demonstrate concrete
string slices): it records the half-open range `[start, end)` over a sequence
and fails with `OutOfRange` when `start > end` or `end > length(seq)`. -/
def slice (seq : List Byte) (start stop : Nat) : Option (List Byte) :=
  if start ≤ stop ∧ stop ≤ seq.length then some ((seq.drop start).take (stop - start))
  else none

/-! ## Claim theorems about `first_word` and slicing -/

/-- C1: `first_word` returns the prefix of `s` before the first space byte
when a space occurs in `s`, all of `s` when none does, and in every case a
prefix of `s` that contains no space byte. -/
theorem first_word_correct (s : List Byte) :
    (spaceByte ∈ s → first_word s = s.take (s.indexOf spaceByte))
    ∧ (spaceByte ∉ s → first_word s = s)
    ∧ (∃ t, first_word s ++ t = s)
    ∧ spaceByte ∉ first_word s := by
  rw [first_word_eq_takeWhile]
  refine ⟨takeWhile_notSpace_of_mem s, takeWhile_notSpace_of_not_mem s,
    ⟨s.dropWhile notSpace, List.takeWhile_append_dropWhile notSpace s⟩, fun hmem => ?_⟩
  have := List.mem_takeWhile_imp hmem
  simp [notSpace] at this

/-- C1 witness: on the bytes of `"hello world"` the first conjunct applies
and the computed word is `"hello"`. -/
theorem first_word_correct_witness : first_word helloWorld = helloBytes := by
  have h := (first_word_correct helloWorld).1 (by decide)
  rw [h]
  decide

/-- C2: `slice seq start stop` succeeds iff `start ≤ stop ≤ length seq` (the
lower bound `0 ≤ start` is inherent to `Nat`), a successful slice has length
`stop - start`, and the full slice returns the whole sequence; concretely,
on `"hello world"` the checked string slices `&s[0..5]` and `&s[6..11]`
succeed and produce `"hello"` and `"world"`, each of length 5. -/
theorem slice_construction (seq : List Byte) (start stop : Nat) :
    ((slice seq start stop).isSome = true ↔ start ≤ stop ∧ stop ≤ seq.length)
    ∧ (∀ r, slice seq start stop = some r → r.length = stop - start)
    ∧ slice seq 0 seq.length = some seq
    ∧ str_slice helloWorld 0 5 = some helloBytes
    ∧ helloBytes.length = 5
    ∧ str_slice helloWorld 6 11 = some worldBytes
    ∧ worldBytes.length = 5 := by
  refine ⟨?_, ?_, by simp [slice], by decide, by decide, by decide, by decide⟩
  · by_cases h : start ≤ stop ∧ stop ≤ seq.length
    · simp [slice, h]
    · simp [slice, h]
  · intro r hr
    by_cases h : start ≤ stop ∧ stop ≤ seq.length
    · rw [slice, if_pos h] at hr
      have hr' := Option.some.inj hr
      rw [← hr', List.length_take, List.length_drop]
      omega
    · rw [slice, if_neg h] at hr
      exact absurd hr (by simp)

/-- C2 witness: the full slice over the bytes of `"hello world"`. -/
theorem slice_construction_witness :
    slice helloWorld 0 helloWorld.length = some helloWorld :=
  (slice_construction helloWorld 0 helloWorld.length).2.2.1

/-- C9: `first_word` with the slicing checks kept in place never takes the
out-of-range / boundary error branch: it always succeeds with the same
result, and the final full slice `&s[..]` is always valid. -/
theorem first_word_never_panics (s : List Byte) :
    first_word_checked s = some (first_word s)
    ∧ str_slice s 0 s.length = some s :=
  ⟨first_word_checked_loop_eq s s 0 (by simp), str_slice_full s⟩

/-- C9 witness: the checked run on the bytes of `"hello world"`. -/
theorem first_word_never_panics_witness :
    first_word_checked helloWorld = some (first_word helloWorld) :=
  (first_word_never_panics helloWorld).1

/-! ## Types and copy-eligibility (src/src/main.rs:104-113) -/

mutual
/-- The types the program's comments classify (src/src/main.rs:108-113):
integers, booleans, floats, characters, `String`, and tuples. -/
inductive Ty where
  | i32T : Ty
  | boolT : Ty
  | f64T : Ty
  | charT : Ty
  | stringT : Ty
  | tupleT : TyList → Ty
/-- A list of component types of a tuple type. -/
inductive TyList where
  | nilT : TyList
  | consT : Ty → TyList → TyList
end

mutual
/-- `classify_copy(type)`: whether assignment duplicates the value.  Per
src/src/main.rs:108-113: all integer, boolean, floating point and character
types are `Copy`; `String` (heap-allocated) is not; a tuple is `Copy` iff
all its components are. -/
def classify_copy : Ty → Bool
  | .i32T => true
  | .boolT => true
  | .f64T => true
  | .charT => true
  | .stringT => false
  | .tupleT ts => classify_copy_list ts
/-- `classify_copy` on every component of a tuple type. -/
def classify_copy_list : TyList → Bool
  | .nilT => true
  | .consT t ts => classify_copy t && classify_copy_list ts
end

mutual
/-- The spec's characterisation "a fixed-size scalar or a product type
composed solely of such", as an inductive predicate independent of
`classify_copy`. -/
inductive ScalarProduct : Ty → Prop where
  | i32SP : ScalarProduct .i32T
  | boolSP : ScalarProduct .boolT
  | f64SP : ScalarProduct .f64T
  | charSP : ScalarProduct .charT
  | tupleSP : ∀ ts, ScalarProductList ts → ScalarProduct (.tupleT ts)
/-- Every component type is a scalar or a scalar product. -/
inductive ScalarProductList : TyList → Prop where
  | nilSP : ScalarProductList .nilT
  | consSP : ∀ t ts, ScalarProduct t → ScalarProductList ts →
      ScalarProductList (.consT t ts)
end

mutual
theorem classify_copy_iff : ∀ t : Ty, classify_copy t = true ↔ ScalarProduct t
  | .i32T => ⟨fun _ => .i32SP, fun _ => rfl⟩
  | .boolT => ⟨fun _ => .boolSP, fun _ => rfl⟩
  | .f64T => ⟨fun _ => .f64SP, fun _ => rfl⟩
  | .charT => ⟨fun _ => .charSP, fun _ => rfl⟩
  | .stringT => ⟨fun h => by exact absurd h (by simp [classify_copy]), fun h => by cases h⟩
  | .tupleT ts =>
    ⟨fun h => .tupleSP ts ((classify_copy_list_iff ts).mp h),
     fun h => by
       cases h with
       | tupleSP _ hl => exact (classify_copy_list_iff ts).mpr hl⟩
theorem classify_copy_list_iff :
    ∀ ts : TyList, classify_copy_list ts = true ↔ ScalarProductList ts
  | .nilT => ⟨fun _ => .nilSP, fun _ => rfl⟩
  | .consT t ts =>
    ⟨fun h => by
       rw [classify_copy_list, Bool.and_eq_true] at h
       exact .consSP t ts ((classify_copy_iff t).mp h.1) ((classify_copy_list_iff ts).mp h.2),
     fun h => by
       cases h with
       | consSP _ _ h1 h2 =>
         rw [classify_copy_list, Bool.and_eq_true]
         exact ⟨(classify_copy_iff t).mpr h1, (classify_copy_list_iff ts).mpr h2⟩⟩
end

/-! ## Runtime values and the ownership checker (modelled from the spec) -/

/-- A runtime value of the demonstration: an `i32`, a heap-resident `String`
(its byte content), or a vector of integers (the spec's word-search
scenario sequence). -/
inductive Value where
  | intV : Int → Value
  | strV : List Byte → Value
  | vecV : List Int → Value
deriving DecidableEq

/-- Whether assignment of this value copies (stack scalars) or moves
(heap-resident data): `i32` is `Copy`, `String` and vectors are not
(src/src/main.rs:51-73, 104-113). -/
def Value.copyEligible : Value → Bool
  | .intV _ => true
  | .strV _ => false
  | .vecV _ => false

/-- Modelled from the spec: the closed set of compile-time diagnostics of
the ownership/borrow verifier (spec §7); the verifier itself is the
compiler's, not part of the repository sources. -/
inductive Violation where
  | UseAfterMove : Violation
  | AliasConflict : Violation
  | DanglingReference : Violation
  | OutOfRange : Violation
  | DoubleMutableBorrow : Violation
deriving DecidableEq

/-- The validity state of a binding: currently owning a value, or moved out
(spec §3, Binding: valid / moved-out). -/
inductive BindState where
  | valid : Value → BindState
  | movedOut : BindState
deriving DecidableEq

/-- Modelled from the spec: the bindings in scope, newest first, each with
its validity state. -/
def Env := List (String × BindState)

/-- The state of the binding named `x`, newest declaration first. -/
def lookupBind (env : Env) (x : String) : Option BindState :=
  match env with
  | [] => none
  | (y, st) :: rest => if y = x then some st else lookupBind rest x

/-- Replace the state of the newest binding named `x`. -/
def setState (env : Env) (x : String) (st : BindState) : Env :=
  match env with
  | [] => []
  | (y, st') :: rest =>
      if y = x then (y, st) :: rest else (y, st') :: setState rest x st

/-- Modelled from the spec: `check_move` as a read — reading a binding fails
with `UseAfterMove` when its value was moved out (spec §4.1). -/
def readBinding (env : Env) (x : String) : Except Violation Value :=
  match lookupBind env x with
  | some (.valid v) => .ok v
  | some .movedOut => .error .UseAfterMove
  | none => .error .UseAfterMove

/-- Modelled from the spec: `let y = x;` — move-by-default assignment.  A
copy-eligible value is duplicated and `x` stays valid; otherwise the value
moves and `x` becomes unusable (spec §4.1 "Move-by-default",
src/src/main.rs:51-69). -/
def assignFrom (env : Env) (y x : String) : Except Violation Env :=
  match readBinding env x with
  | .error e => .error e
  | .ok v =>
      if v.copyEligible then .ok ((y, .valid v) :: env)
      else .ok ((y, .valid v) :: setState env x .movedOut)

/-- Modelled from the spec: passing `x` to a function by value — the callee
receives the value; a non-copy-eligible argument is moved out of the
caller's binding (src/src/main.rs:71-75). -/
def callByValue (env : Env) (x : String) : Except Violation (Value × Env) :=
  match readBinding env x with
  | .error e => .error e
  | .ok v => .ok (v, if v.copyEligible then env else setState env x .movedOut)

/-- Modelled from the spec: passing `&x` to a function — the callee receives
the value through the reference and the caller's environment is untouched
(src/src/main.rs:80-81, 144-147). -/
def callByRef (env : Env) (x : String) : Except Violation (Value × Env) :=
  match readBinding env x with
  | .error e => .error e
  | .ok v => .ok (v, env)

/-! ## The demonstration functions (src/src/main.rs:115-147) -/

/-- Embedding of `fn take_and_give_back(a_string: String) -> String`
(src/src/main.rs:126-128): returns its argument, moving it back out. -/
def take_and_give_back (a_string : List Byte) : List Byte := a_string

/-- The byte content produced by `.clone()` (src/src/main.rs:68, 136): a deep
copy carries the same bytes (its storage is modelled separately by the heap
below). -/
def clone (s : List Byte) : List Byte := s

/-- Embedding of `fn return_multiple_values(a_string: String) -> (String, String)`
(src/src/main.rs:135-139): clone into `another_string`, return both. -/
def return_multiple_values (a_string : List Byte) : List Byte × List Byte :=
  (clone a_string, a_string)

/-- Embedding of `fn using_a_reference(s: &String) -> usize`
(src/src/main.rs:144-147): the byte length of the borrowed string. -/
def using_a_reference (s : List Byte) : Nat := s.length

/-- Embedding of `fn make_copy(a_int: i32)` (src/src/main.rs:121-124): the
value it observes (and prints) is its argument, bitwise-duplicated. -/
def make_copy (a_int : Int) : Int := a_int

/-! ## Environment lemmas -/

theorem lookupBind_setState_self :
    ∀ (env : Env) (x : String) (st : BindState),
      (lookupBind env x).isSome = true → lookupBind (setState env x st) x = some st
  | [], x, st, h => by simp [lookupBind] at h
  | (y, st') :: rest, x, st, h => by
    by_cases hyx : y = x
    · simp [setState, lookupBind, hyx]
    · simp only [lookupBind, if_neg hyx] at h
      simp only [setState, if_neg hyx, lookupBind]
      exact lookupBind_setState_self rest x st h

/-! ## Claim theorems about moves, copies and borrows -/

/-- C7: after a non-copy-eligible value is moved by `let y = x;`, reading the
source binding fails with `UseAfterMove`, while the destination binding reads
back the moved content unchanged. -/
theorem move_invalidates_source (env : Env) (x y : String) (w : List Byte)
    (hx : lookupBind env x = some (.valid (.strV w))) (hxy : x ≠ y) :
    assignFrom env y x = .ok ((y, .valid (.strV w)) :: setState env x .movedOut)
    ∧ readBinding ((y, .valid (.strV w)) :: setState env x .movedOut) x
        = .error .UseAfterMove
    ∧ readBinding ((y, .valid (.strV w)) :: setState env x .movedOut) y
        = .ok (.strV w) := by
  have hyx : ¬(y = x) := fun h => hxy h.symm
  have hread : readBinding env x = .ok (.strV w) := by simp [readBinding, hx]
  have hset : lookupBind (setState env x .movedOut) x = some .movedOut :=
    lookupBind_setState_self env x .movedOut (by simp [hx])
  refine ⟨?_, ?_, ?_⟩
  · simp [assignFrom, hread, Value.copyEligible]
  · simp [readBinding, lookupBind, hyx, hset]
  · simp [readBinding, lookupBind]

/-- C7 witness: `let s2 = s1;` where `s1` owns `"hello"` — using `s1`
afterwards is rejected with `UseAfterMove`. -/
theorem move_invalidates_source_witness :
    readBinding (("s2", BindState.valid (Value.strV helloBytes)) ::
        setState [("s1", BindState.valid (Value.strV helloBytes))] "s1" BindState.movedOut)
      "s1" = Except.error Violation.UseAfterMove :=
  (move_invalidates_source [("s1", BindState.valid (Value.strV helloBytes))] "s1" "s2"
    helloBytes rfl (by decide)).2.1

/-- C5: `take_and_give_back` is the identity on the string's content, and
passing the argument by value moves it out of the caller's binding, which is
unusable afterwards. -/
theorem take_and_give_back_spec (s : List Byte) (env : Env) (x : String) (w : List Byte)
    (hx : lookupBind env x = some (.valid (.strV w))) :
    take_and_give_back s = s
    ∧ callByValue env x = .ok (.strV w, setState env x .movedOut)
    ∧ readBinding (setState env x .movedOut) x = .error .UseAfterMove := by
  have hread : readBinding env x = .ok (.strV w) := by simp [readBinding, hx]
  have hset : lookupBind (setState env x .movedOut) x = some .movedOut :=
    lookupBind_setState_self env x .movedOut (by simp [hx])
  refine ⟨rfl, ?_, ?_⟩
  · simp [callByValue, hread, Value.copyEligible]
  · simp [readBinding, hset]

/-- C5 witness: `take_and_give_back` on the bytes of `"hello"` and a caller
environment binding `s2` to them. -/
theorem take_and_give_back_spec_witness :
    take_and_give_back helloBytes = helloBytes :=
  (take_and_give_back_spec helloBytes [("s2", BindState.valid (Value.strV helloBytes))]
    "s2" helloBytes rfl).1

/-- C6: assigning or passing a copy-eligible `i32` duplicates it — both
bindings read back the same value and the caller's environment is untouched
by `make_copy` — and `classify_copy` accepts exactly the fixed-size scalars
and products composed solely of them. -/
theorem copy_semantics (env : Env) (x y : String) (n : Int) (t : Ty)
    (hx : lookupBind env x = some (.valid (.intV n))) :
    assignFrom env y x = .ok ((y, .valid (.intV n)) :: env)
    ∧ readBinding ((y, .valid (.intV n)) :: env) y = .ok (.intV n)
    ∧ readBinding ((y, .valid (.intV n)) :: env) x = .ok (.intV n)
    ∧ callByValue env x = .ok (.intV n, env)
    ∧ make_copy n = n
    ∧ (classify_copy t = true ↔ ScalarProduct t) := by
  have hread : readBinding env x = .ok (.intV n) := by simp [readBinding, hx]
  refine ⟨?_, ?_, ?_, ?_, rfl, classify_copy_iff t⟩
  · simp [assignFrom, hread, Value.copyEligible]
  · simp [readBinding, lookupBind]
  · by_cases hyx : y = x
    · simp [readBinding, lookupBind, hyx]
    · simp [readBinding, lookupBind, hyx, hx]
  · simp [callByValue, hread, Value.copyEligible]

/-- C6 witness: `let x = 5; let y = x;` — both bindings stay usable and a
two-`i32` tuple classifies as copy-eligible while `(i32, String)` does not. -/
theorem copy_semantics_witness :
    readBinding (("y", BindState.valid (Value.intV 5)) ::
      [("x", BindState.valid (Value.intV 5))]) "x" = Except.ok (Value.intV 5) :=
  (copy_semantics [("x", BindState.valid (Value.intV 5))] "x" "y" 5
    (.tupleT (.consT .i32T (.consT .i32T .nilT))) rfl).2.2.1

/-! ## The spec's word-search scenario -/

/-- The scan of the word-search scenario: index of the first element equal
to the target, counting from `i`. -/
def searchIdx : List Int → Int → Nat → Option Nat
  | [], _, _ => none
  | v :: rest, t, i => if v = t then some i else searchIdx rest t (i + 1)

/-- Modelled from the spec: the word-search scenario function (spec §8) is
not among the repository sources (`first_word` is its string analogue); it
receives an exclusive reference to a sequence — modelled by taking the
sequence and handing it back, here unchanged, next to the result — and
returns the index of the first element equal to `target`. -/
def word_search (seq : List Int) (target : Int) : Option Nat × List Int :=
  (searchIdx seq target 0, seq)

theorem searchIdx_spec :
    ∀ (seq : List Int) (t : Int) (i0 i : Nat), searchIdx seq t i0 = some i →
      i0 ≤ i ∧ seq.get? (i - i0) = some t ∧ ∀ j, j < i - i0 → seq.get? j ≠ some t
  | [], t, i0, i, h => by simp [searchIdx] at h
  | v :: rest, t, i0, i, h => by
    by_cases hv : v = t
    · rw [searchIdx, if_pos hv] at h
      injection h with h
      subst h
      subst hv
      refine ⟨Nat.le_refl i0, ?_, ?_⟩
      · simp
      · intro j hj
        omega
    · rw [searchIdx, if_neg hv] at h
      obtain ⟨hle, hget, hfirst⟩ := searchIdx_spec rest t (i0 + 1) i h
      refine ⟨by omega, ?_, ?_⟩
      · have : i - i0 = (i - (i0 + 1)) + 1 := by omega
        rw [this]
        simpa using hget
      · intro j hj
        match j with
        | 0 => simpa using hv
        | j' + 1 =>
          have : j' < i - (i0 + 1) := by omega
          simpa using hfirst j' this

theorem searchIdx_none_iff :
    ∀ (seq : List Int) (t : Int) (i0 : Nat), searchIdx seq t i0 = none ↔ t ∉ seq
  | [], t, i0 => by simp [searchIdx]
  | v :: rest, t, i0 => by
    by_cases hv : v = t
    · rw [searchIdx, if_pos hv]
      simp [hv]
    · rw [searchIdx, if_neg hv, searchIdx_none_iff rest t (i0 + 1)]
      constructor
      · intro h hmem
        rcases List.mem_cons.mp hmem with he | hm
        · exact hv he.symm
        · exact h hm
      · intro h hm
        exact h (List.mem_cons_of_mem v hm)

/-- C3: the word-search function leaves the sequence it receives by
reference unchanged in the caller's hands; whenever the target occurs in the
sequence it does return an index, every returned index is the first position
holding the target; and the caller's binding stays valid after the borrowing
call. -/
theorem word_search_spec (seq : List Int) (target : Int) (env : Env) (x : String)
    (hx : lookupBind env x = some (.valid (.vecV seq))) :
    (word_search seq target).2 = seq
    ∧ (target ∈ seq → ∃ i, (word_search seq target).1 = some i)
    ∧ (∀ i, (word_search seq target).1 = some i →
        seq.get? i = some target ∧ ∀ j, j < i → seq.get? j ≠ some target)
    ∧ callByRef env x = .ok (.vecV seq, env)
    ∧ readBinding env x = .ok (.vecV seq) := by
  have hread : readBinding env x = .ok (.vecV seq) := by simp [readBinding, hx]
  refine ⟨rfl, ?_, ?_, by simp [callByRef, hread], hread⟩
  · intro hmem
    cases hcase : searchIdx seq target 0 with
    | none => exact absurd hmem ((searchIdx_none_iff seq target 0).mp hcase)
    | some i => exact ⟨i, hcase⟩
  · intro i hi
    obtain ⟨_, hget, hfirst⟩ := searchIdx_spec seq target 0 i hi
    exact ⟨by simpa using hget, fun j hj => by simpa using hfirst j (by omega)⟩

/-- C3 witness: searching `[1,2,3,4,5]` for 3 through a reference returns
index 2 — the first (and only) position holding 3 — and hands the sequence
back unchanged. -/
theorem word_search_spec_witness :
    (word_search [1, 2, 3, 4, 5] 3).1 = some 2
    ∧ (word_search [1, 2, 3, 4, 5] 3).2 = [1, 2, 3, 4, 5]
    ∧ ([1, 2, 3, 4, 5] : List Int).get? 2 = some 3 := by
  have h := word_search_spec [1, 2, 3, 4, 5] 3
    [("v", BindState.valid (Value.vecV [1, 2, 3, 4, 5]))] "v" rfl
  exact ⟨by decide, h.1, (h.2.2.1 2 (by decide)).1⟩

/-- C10: `using_a_reference` returns the byte length of the borrowed string,
and the borrowing call leaves the caller's binding valid with its content
unchanged. -/
theorem using_a_reference_spec (s : List Byte) (env : Env) (x : String)
    (hx : lookupBind env x = some (.valid (.strV s))) :
    using_a_reference s = s.length
    ∧ callByRef env x = .ok (.strV s, env)
    ∧ readBinding env x = .ok (.strV s) := by
  have hread : readBinding env x = .ok (.strV s) := by simp [readBinding, hx]
  exact ⟨rfl, by simp [callByRef, hread], hread⟩

/-- C10 witness: borrowing the bytes of `"hello"` returns length 5 and the
binding stays readable. -/
theorem using_a_reference_spec_witness :
    using_a_reference helloBytes = helloBytes.length :=
  (using_a_reference_spec helloBytes [("s2", BindState.valid (Value.strV helloBytes))]
    "s2" rfl).1

/-! ## Heap storage for `String` values (src/src/main.rs:54-68) -/

/-- The heap: the byte contents of each allocated `String`, indexed by
address (list position). -/
abbrev Heap := List (List Byte)

/-- The contents stored at address `a`. -/
def heapGet (h : Heap) (a : Nat) : Option (List Byte) := h.get? a

/-- Request new storage from the heap: the contents go to a fresh address. -/
def allocStr (h : Heap) (v : List Byte) : Heap × Nat := (h ++ [v], h.length)

/-- `s.clone()` at the storage level (src/src/main.rs:68): read the contents
at `a` and copy them into freshly allocated, independent storage. -/
def cloneAt (h : Heap) (a : Nat) : Option (Heap × Nat) :=
  match heapGet h a with
  | some v => some (allocStr h v)
  | none => none

/-- `String::push_str` (src/src/main.rs:48): append bytes to the contents at
address `a` in place. -/
def push_str (h : Heap) (a : Nat) (suffix : List Byte) : Option Heap :=
  match heapGet h a with
  | some v => some (h.set a (v ++ suffix))
  | none => none

/-- C4: cloning a heap-resident string copies its content to a fresh address:
original and duplicate read back equal, their storage is distinct, and
mutating the duplicate leaves the original unchanged; at the content level,
`return_multiple_values` hands back a pair of strings both equal to its
input. -/
theorem clone_independent (h : Heap) (a : Nat) (v suffix : List Byte)
    (hv : heapGet h a = some v) :
    return_multiple_values v = (v, v)
    ∧ cloneAt h a = some (h ++ [v], h.length)
    ∧ a ≠ h.length
    ∧ heapGet (h ++ [v]) a = some v
    ∧ heapGet (h ++ [v]) h.length = some v
    ∧ (∀ h2, push_str (h ++ [v]) h.length suffix = some h2 →
        heapGet h2 a = some v) := by
  have ha : a < h.length := by
    obtain ⟨hlt, _⟩ := List.get?_eq_some.mp hv
    exact hlt
  have happ : heapGet (h ++ [v]) a = some v := by
    rw [heapGet, List.get?_append ha]
    exact hv
  have hlen2 : heapGet (h ++ [v]) h.length = some v := by
    rw [heapGet]
    exact List.get?_concat_length h v
  refine ⟨rfl, ?_, by omega, happ, hlen2, ?_⟩
  · simp [cloneAt, hv, allocStr]
  · intro h2 hpush
    rw [push_str, hlen2] at hpush
    have h2eq : h2 = (h ++ [v]).set h.length (v ++ suffix) :=
      (Option.some.inj hpush).symm
    rw [h2eq, heapGet, List.get?_set_ne _ _ (by omega)]
    exact happ

/-- C4 witness: `let s3 = s2.clone();` where `s2` holds `"hello"` at heap
address 0 — the content-level pair both read `"hello"`. -/
theorem clone_independent_witness :
    return_multiple_values helloBytes = (helloBytes, helloBytes) :=
  (clone_independent [helloBytes] 0 helloBytes [] rfl).1

/-! ## Borrow exclusivity (modelled from the spec) -/

/-- Modelled from the spec: a reference over a binding, shared or exclusive,
live over the half-open span `[lo, hi)` of program points (spec §3,
Reference; the checker enforcing it is the compiler's, not part of the
repository sources, whose comments at src/src/main.rs:148-160 describe it). -/
structure Borrow where
  target : String
  exclusive : Bool
  lo : Nat
  hi : Nat
deriving DecidableEq

/-- Two references target the same binding with overlapping lifespans. -/
def overlapping (r1 r2 : Borrow) : Bool :=
  r1.target == r2.target && decide (r1.lo < r2.hi) && decide (r2.lo < r1.hi)

/-- An overlapping pair is a conflict unless both references are shared. -/
def conflicting (r1 r2 : Borrow) : Bool :=
  overlapping r1 r2 && (r1.exclusive || r2.exclusive)

/-- Modelled from the spec: `check_borrow` over all of a program's
references — accept iff no two conflict (spec §4.1 "Borrow exclusivity"). -/
def borrow_check : List Borrow → Bool
  | [] => true
  | r :: rs => (rs.all fun r2 => !conflicting r r2) && borrow_check rs

theorem overlapping_comm (r1 r2 : Borrow) :
    overlapping r1 r2 = overlapping r2 r1 := by
  unfold overlapping
  by_cases h : r1.target = r2.target
  · by_cases h1 : r1.lo < r2.hi <;> by_cases h2 : r2.lo < r1.hi <;>
      simp [h, h1, h2]
  · have hb1 : (r1.target == r2.target) = false := beq_eq_false_iff_ne.mpr h
    have hb2 : (r2.target == r1.target) = false :=
      beq_eq_false_iff_ne.mpr fun he => h he.symm
    rw [hb1, hb2]
    simp

theorem conflicting_comm (r1 r2 : Borrow) :
    conflicting r1 r2 = conflicting r2 r1 := by
  unfold conflicting
  rw [overlapping_comm, Bool.or_comm]

theorem borrow_check_iff_pairwise :
    ∀ bs : List Borrow,
      borrow_check bs = true ↔ bs.Pairwise (fun r1 r2 => conflicting r1 r2 = false)
  | [] => by simp [borrow_check]
  | r :: rs => by
    rw [borrow_check, Bool.and_eq_true, List.all_eq_true, List.pairwise_cons,
      borrow_check_iff_pairwise rs]
    constructor
    · rintro ⟨h1, h2⟩
      exact ⟨fun r2 hr2 => by simpa using h1 r2 hr2, h2⟩
    · rintro ⟨h1, h2⟩
      exact ⟨fun r2 hr2 => by simpa using h1 r2 hr2, h2⟩

/-- C8: the borrow checker accepts a program's references exactly when every
two distinct references over the same binding with overlapping lifespans are
both shared — any exclusive reference overlapping another reference is
rejected by the check, before execution. -/
theorem borrow_exclusivity (bs : List Borrow) :
    borrow_check bs = true ↔
      ∀ (i j : Fin bs.length), i.val ≠ j.val →
        overlapping (bs.get i) (bs.get j) = true →
        (bs.get i).exclusive = false ∧ (bs.get j).exclusive = false := by
  rw [borrow_check_iff_pairwise, List.pairwise_iff_get]
  constructor
  · intro hp i j hij hov
    rcases Nat.lt_or_ge i.val j.val with hlt | hge
    · have hc := hp i j hlt
      rw [conflicting, Bool.and_eq_false_iff] at hc
      rcases hc with hc | hc
      · rw [hov] at hc
        exact absurd hc (by simp)
      · simpa using hc
    · have hlt : j < i := Fin.lt_def.mpr (by omega)
      have hc := hp j i hlt
      rw [conflicting, Bool.and_eq_false_iff] at hc
      rcases hc with hc | hc
      · rw [overlapping_comm] at hov
        rw [hov] at hc
        exact absurd hc (by simp)
      · have := Bool.or_eq_false_iff.mp hc
        exact ⟨this.2, this.1⟩
  · intro hp i j hij
    rw [conflicting, Bool.and_eq_false_iff]
    by_cases hov : overlapping (bs.get i) (bs.get j) = true
    · right
      have hps := hp i j (by omega) hov
      simp only [List.get_eq_getElem] at hps ⊢
      simp [hps.1, hps.2]
    · left
      exact Bool.not_eq_true _ ▸ Bool.eq_false_iff.mpr hov

/-- C8 witness: two overlapping shared references over the same binding are
accepted by the checker. -/
theorem borrow_exclusivity_witness :
    borrow_check [⟨"s", false, 0, 2⟩, ⟨"s", false, 1, 3⟩] = true :=
  (borrow_exclusivity [⟨"s", false, 0, 2⟩, ⟨"s", false, 1, 3⟩]).mpr (by decide)
